import Mathlib

/-!
# EdgePartition2D: verification of the edge-to-partition assignment function

This file embeds the two assignment functions of the notebook
`EdgePartition2D.ipynb` — `old2d` (the original perfect-square algorithm) and
`new2d` (the improved algorithm for arbitrary partition counts) — and proves
range, geometry, balance and replication properties about them.

Arithmetic model. The notebook computes on `numpy.int64` values ("We use
`numpy.int64` to match Java's overflow behavior"), with
`np.seterr(all='ignore')` so that overflow wraps silently and integer
division/modulo by zero silently yield `0`. We model 64-bit values as
integers in `[-2^63, 2^63)` with an explicit wrap (`wrap64`), absolute value
as numpy's wrapping `np.abs` (`absWrap64`, so that the absolute value of
`-2^63` is `-2^63` itself), and `%` / `//` with numpy's floored-division
convention, which for the positive divisors appearing in the code agrees with
Lean's euclidean `Int.emod` / `Int.ediv`; division or modulo by zero yields
`0` (`npMod`, `npDiv`). `math.ceil(math.sqrt(numParts))` is modelled as the
exact integer ceiling of the square root (`natCeilSqrt`); `math.sqrt` raises
`ValueError` on negative input, which the `Except`-valued variants
`old2dE` / `new2dE` reproduce — these are the only places the notebook code
can raise.
-/

namespace EdgePartition2D

/-- The fixed mixing constant `1125899906842597` of the notebook. -/
def mixingPrime : ℤ := 1125899906842597

/-- Reduce an integer to the 64-bit signed range `[-2^63, 2^63)` with
two's-complement wraparound, as `numpy.int64` arithmetic does. -/
def wrap64 (x : ℤ) : ℤ := (x + 2 ^ 63) % 2 ^ 64 - 2 ^ 63

/-- `np.abs` on `numpy.int64`: the mathematical absolute value, wrapped back
into the 64-bit signed range (so `absWrap64 (-2^63) = -2^63`). -/
def absWrap64 (x : ℤ) : ℤ := wrap64 |x|

/-- numpy `%` on int64 with `np.seterr(all='ignore')`: floored modulo
(euclidean for the positive divisors used here); modulo by zero is `0`. -/
def npMod (a b : ℤ) : ℤ := if b = 0 then 0 else a % b

/-- numpy `//` on int64 with `np.seterr(all='ignore')`: floored division
(euclidean for the nonnegative operands used here); division by zero is `0`. -/
def npDiv (a b : ℤ) : ℤ := if b = 0 then 0 else a / b

/-- Fuel-driven search for the least `c ≥ start` with `n ≤ c * c`. -/
def ceilSqrtAux (n : ℕ) : ℕ → ℕ → ℕ
  | 0, c => c
  | fuel + 1, c => if n ≤ c * c then c else ceilSqrtAux n fuel (c + 1)

/-- `⌈√n⌉` on naturals: the least `c` with `n ≤ c * c`. This is the exact
value of the notebook's `math.ceil(math.sqrt(numParts))` for nonnegative
input. -/
def natCeilSqrt (n : ℕ) : ℕ := ceilSqrtAux n n 0

/-- The notebook's `ceilSqrtNumParts = np.int64(math.ceil(math.sqrt(numParts)))`
(exact for nonnegative input; for negative input `math.sqrt` raises, see
`old2dE` / `new2dE`). -/
def ceilSqrtNumParts (numParts : ℤ) : ℤ := (natCeilSqrt numParts.toNat : ℤ)

/-- The ID-scrambling step shared by both algorithms:
`abs(np.int64(v) * mixingPrime)` in wrapping 64-bit arithmetic. -/
def scramble (v : ℤ) : ℤ := absWrap64 (wrap64 (wrap64 v * mixingPrime))

/-- The notebook's `old2d(src, dst, numParts)`:

    col = int(abs(src * mixingPrime) % ceilSqrtNumParts)
    row = int(abs(dst * mixingPrime) % ceilSqrtNumParts)
    return (col * ceilSqrtNumParts + row) % numParts
-/
def old2d (src dst numParts : ℤ) : ℤ :=
  let c := ceilSqrtNumParts numParts
  let col := npMod (scramble src) c
  let row := npMod (scramble dst) c
  npMod (col * c + row) numParts

/-- The notebook's `cols = ceilSqrtNumParts`. -/
def cols (numParts : ℤ) : ℤ := ceilSqrtNumParts numParts

/-- The notebook's `rows = (numParts + cols - 1) // cols`. -/
def rows (numParts : ℤ) : ℤ := npDiv (numParts + cols numParts - 1) (cols numParts)

/-- The notebook's `lastColRows = numParts - rows * (cols - 1)`. -/
def lastColRows (numParts : ℤ) : ℤ :=
  numParts - rows numParts * (cols numParts - 1)

/-- The notebook's `new2d(src, dst, numParts)`:

    col = int(abs(src * mixingPrime) % numParts // rows)
    row = int(abs(dst * mixingPrime) % (rows if (col < cols - 1) else lastColRows))
    return col * rows + row
-/
def new2d (src dst numParts : ℤ) : ℤ :=
  let col := npDiv (npMod (scramble src) numParts) (rows numParts)
  let row := npMod (scramble dst)
      (if col < cols numParts - 1 then rows numParts else lastColRows numParts)
  col * rows numParts + row

/-- The branching `getPartition` of the notebook's "Improved" strategy: the
perfect-square fast path runs the old algorithm, every other partition count
runs the new one. -/
def getPartition (src dst numParts : ℤ) : ℤ :=
  if numParts = ceilSqrtNumParts numParts * ceilSqrtNumParts numParts then
    old2d src dst numParts
  else
    new2d src dst numParts

/-- `old2d` with its raising behavior made explicit: `math.sqrt(numParts)`
raises `ValueError: math domain error` when `numParts < 0`; nothing else in
the function can raise (numpy overflow and division by zero are silenced). -/
def old2dE (src dst numParts : ℤ) : Except String ℤ :=
  if numParts < 0 then Except.error "math domain error"
  else Except.ok (old2d src dst numParts)

/-- `new2d` with its raising behavior made explicit, as for `old2dE`. -/
def new2dE (src dst numParts : ℤ) : Except String ℤ :=
  if numParts < 0 then Except.error "math domain error"
  else Except.ok (new2d src dst numParts)

/-- How many of the reduced IDs `h ∈ [0, numParts)` the column-assignment map
`h ↦ h // rows` of `new2d` routes to column `c`. -/
def colCount (numParts c : ℤ) : ℕ :=
  ((Finset.range numParts.toNat).filter
    (fun h : ℕ => npDiv (h : ℤ) (rows numParts) = c)).card

/-! ## Basic facts about the arithmetic model -/

lemma ceilSqrtAux_spec (n : ℕ) : ∀ fuel c, n ≤ (c + fuel) * (c + fuel) →
    (∀ x, x < c → x * x < n) →
    n ≤ ceilSqrtAux n fuel c * ceilSqrtAux n fuel c ∧
      ∀ x, x < ceilSqrtAux n fuel c → x * x < n := by
  intro fuel
  induction fuel with
  | zero =>
      intro c h hlow
      exact ⟨h, hlow⟩
  | succ fuel ih =>
      intro c h hlow
      by_cases hc : n ≤ c * c
      · constructor
        · simp only [ceilSqrtAux, if_pos hc]
          exact hc
        · simp only [ceilSqrtAux, if_pos hc]
          exact hlow
      · have harg : c + 1 + fuel = c + (fuel + 1) := by omega
        have hlow' : ∀ x, x < c + 1 → x * x < n := by
          intro x hx
          rcases Nat.lt_or_ge x c with hx' | hx'
          · exact hlow x hx'
          · have hxc : x = c := by omega
            subst hxc
            omega
        have := ih (c + 1) (by rw [harg]; exact h) hlow'
        constructor
        · simpa [ceilSqrtAux, hc] using this.1
        · simpa [ceilSqrtAux, hc] using this.2

lemma natCeilSqrt_le_sq (n : ℕ) : n ≤ natCeilSqrt n * natCeilSqrt n := by
  have hbound : n ≤ (0 + n) * (0 + n) := by
    rcases Nat.eq_zero_or_pos n with h | h
    · simp [h]
    · simpa using Nat.le_mul_of_pos_left n h
  exact (ceilSqrtAux_spec n n 0 hbound (by omega)).1

lemma sq_lt_of_lt_natCeilSqrt {n x : ℕ} (hx : x < natCeilSqrt n) : x * x < n := by
  have hbound : n ≤ (0 + n) * (0 + n) := by
    rcases Nat.eq_zero_or_pos n with h | h
    · simp [h]
    · simpa using Nat.le_mul_of_pos_left n h
  exact (ceilSqrtAux_spec n n 0 hbound (by omega)).2 x hx

lemma npMod_eq_emod {a b : ℤ} (hb : b ≠ 0) : npMod a b = a % b := by
  simp [npMod, hb]

lemma npMod_nonneg {b : ℤ} (a : ℤ) (hb : 0 < b) : 0 ≤ npMod a b := by
  rw [npMod_eq_emod (by omega)]
  exact Int.emod_nonneg a (by omega)

lemma npMod_lt {b : ℤ} (a : ℤ) (hb : 0 < b) : npMod a b < b := by
  rw [npMod_eq_emod (by omega)]
  exact Int.emod_lt_of_pos a hb

lemma npDiv_eq_ediv {a b : ℤ} (hb : b ≠ 0) : npDiv a b = a / b := by
  simp [npDiv, hb]

/-! ## Facts about the ceiling square root of the partition count -/

lemma ceilSqrt_pos {n : ℤ} (hn : 1 ≤ n) : 1 ≤ ceilSqrtNumParts n := by
  rw [ceilSqrtNumParts]
  have h1 : 1 ≤ n.toNat := by omega
  have : 1 ≤ natCeilSqrt n.toNat := by
    by_contra h
    have h0 : natCeilSqrt n.toNat = 0 := by omega
    have := natCeilSqrt_le_sq n.toNat
    rw [h0] at this
    omega
  exact_mod_cast this

lemma le_ceilSqrt_sq {n : ℤ} (hn : 1 ≤ n) :
    n ≤ ceilSqrtNumParts n * ceilSqrtNumParts n := by
  rw [ceilSqrtNumParts]
  have h := natCeilSqrt_le_sq n.toNat
  have hcast : ((n.toNat : ℤ)) = n := Int.toNat_of_nonneg (by omega)
  calc n = (n.toNat : ℤ) := hcast.symm
    _ ≤ ((natCeilSqrt n.toNat * natCeilSqrt n.toNat : ℕ) : ℤ) := by exact_mod_cast h
    _ = (natCeilSqrt n.toNat : ℤ) * (natCeilSqrt n.toNat : ℤ) := by push_cast; ring

lemma ceilSqrt_pred_sq_lt {n : ℤ} (hn : 1 ≤ n) :
    (ceilSqrtNumParts n - 1) * (ceilSqrtNumParts n - 1) < n := by
  have hpos : 1 ≤ ceilSqrtNumParts n := ceilSqrt_pos hn
  rw [ceilSqrtNumParts] at hpos ⊢
  set t := natCeilSqrt n.toNat with ht
  have ht1 : 1 ≤ t := by exact_mod_cast hpos
  have hlt : (t - 1) * (t - 1) < n.toNat := sq_lt_of_lt_natCeilSqrt (by omega)
  have hcast : ((n.toNat : ℤ)) = n := Int.toNat_of_nonneg (by omega)
  have : ((t : ℤ) - 1) * ((t : ℤ) - 1) < (n.toNat : ℤ) := by
    have h1 : (((t - 1) * (t - 1) : ℕ) : ℤ) < (n.toNat : ℤ) := by exact_mod_cast hlt
    have h2 : (((t - 1) : ℕ) : ℤ) = (t : ℤ) - 1 := by
      push_cast [Nat.cast_sub ht1]
      ring
    calc ((t : ℤ) - 1) * ((t : ℤ) - 1)
        = (((t - 1) : ℕ) : ℤ) * (((t - 1) : ℕ) : ℤ) := by rw [h2]
      _ = (((t - 1) * (t - 1) : ℕ) : ℤ) := by push_cast; ring
      _ < (n.toNat : ℤ) := h1
  rwa [hcast] at this

/-! ## Grid geometry

For `numParts ≥ 1` put `c = cols numParts`, `r = rows numParts`. The
division-with-remainder decomposition of `numParts + c - 1` by `c` drives all
the geometry bounds. -/

lemma cols_pos {n : ℤ} (hn : 1 ≤ n) : 1 ≤ cols n := ceilSqrt_pos hn

lemma rows_eq_ediv {n : ℤ} (hn : 1 ≤ n) :
    rows n = (n + cols n - 1) / cols n := by
  have hc : cols n ≠ 0 := by have := cols_pos hn; omega
  rw [rows, npDiv_eq_ediv hc]

lemma rows_pos {n : ℤ} (hn : 1 ≤ n) : 1 ≤ rows n := by
  have hc : 1 ≤ cols n := cols_pos hn
  rw [rows_eq_ediv hn]
  set c := cols n with hcdef
  have heq : c * ((n + c - 1) / c) + (n + c - 1) % c = n + c - 1 :=
    Int.ediv_add_emod _ _
  have hs1 : (n + c - 1) % c < c := Int.emod_lt_of_pos _ (by omega)
  set q := (n + c - 1) / c with hq
  by_contra hcon
  push_neg at hcon
  have hq0 : q ≤ 0 := by omega
  have : c * q ≤ 0 := mul_nonpos_of_nonneg_of_nonpos (by omega) hq0
  omega

lemma le_cols_mul_rows {n : ℤ} (hn : 1 ≤ n) : n ≤ cols n * rows n := by
  have hc : 1 ≤ cols n := cols_pos hn
  rw [rows_eq_ediv hn]
  set c := cols n with hcdef
  have heq : c * ((n + c - 1) / c) + (n + c - 1) % c = n + c - 1 :=
    Int.ediv_add_emod _ _
  have hs1 : (n + c - 1) % c < c := Int.emod_lt_of_pos _ (by omega)
  omega

lemma rows_mul_colsPred_lt {n : ℤ} (hn : 1 ≤ n) :
    rows n * (cols n - 1) < n := by
  have hc : 1 ≤ cols n := cols_pos hn
  have hlow : (cols n - 1) * (cols n - 1) < n := ceilSqrt_pred_sq_lt hn
  rw [rows_eq_ediv hn]
  set c := cols n with hcdef
  have heq : c * ((n + c - 1) / c) + (n + c - 1) % c = n + c - 1 :=
    Int.ediv_add_emod _ _
  have hs0 : 0 ≤ (n + c - 1) % c := Int.emod_nonneg _ (by omega)
  have hs1 : (n + c - 1) % c < c := Int.emod_lt_of_pos _ (by omega)
  set q := (n + c - 1) / c with hq
  set s := (n + c - 1) % c with hs
  rcases eq_or_lt_of_le hs0 with h0 | h1
  · have h2 : c * (c - 1) < c * q := by nlinarith
    have h3 : c - 1 < q := lt_of_mul_lt_mul_left h2 (by omega)
    nlinarith
  · have h2 : c * (c - 2) < c * q := by nlinarith
    have h3 : c - 2 < q := lt_of_mul_lt_mul_left h2 (by omega)
    nlinarith

lemma lastColRows_pos {n : ℤ} (hn : 1 ≤ n) : 1 ≤ lastColRows n := by
  have := rows_mul_colsPred_lt hn
  rw [lastColRows]
  omega

lemma lastColRows_le_rows {n : ℤ} (hn : 1 ≤ n) : lastColRows n ≤ rows n := by
  have h := le_cols_mul_rows hn
  rw [lastColRows]
  nlinarith [h]

lemma rows_le_cols {n : ℤ} (hn : 1 ≤ n) : rows n ≤ cols n := by
  have hc : 1 ≤ cols n := cols_pos hn
  have hcn : n ≤ cols n * cols n := le_ceilSqrt_sq hn
  rw [rows_eq_ediv hn]
  set c := cols n with hcdef
  have heq : c * ((n + c - 1) / c) + (n + c - 1) % c = n + c - 1 :=
    Int.ediv_add_emod _ _
  have hs0 : 0 ≤ (n + c - 1) % c := Int.emod_nonneg _ (by omega)
  set q := (n + c - 1) / c with hq
  have h2 : c * q < c * (c + 1) := by nlinarith
  have h3 : q < c + 1 := lt_of_mul_lt_mul_left h2 (by omega)
  omega

lemma geometry_identity (n : ℤ) :
    (cols n - 1) * rows n + lastColRows n = n := by
  rw [lastColRows]
  ring

/-! ## Range of the two assignment functions -/

lemma old2d_mem_range {n : ℤ} (src dst : ℤ) (hn : 1 ≤ n) :
    0 ≤ old2d src dst n ∧ old2d src dst n < n := by
  simp only [old2d]
  exact ⟨npMod_nonneg _ (by omega), npMod_lt _ (by omega)⟩

/-- The column index of `new2d` lies in `[0, cols numParts)`. -/
lemma new2d_col_bounds {n : ℤ} (src : ℤ) (hn : 1 ≤ n) :
    0 ≤ npDiv (npMod (scramble src) n) (rows n) ∧
      npDiv (npMod (scramble src) n) (rows n) ≤ cols n - 1 := by
  have hr : 1 ≤ rows n := rows_pos hn
  have hnle : n ≤ cols n * rows n := le_cols_mul_rows hn
  have hA0 : 0 ≤ npMod (scramble src) n := npMod_nonneg _ (by omega)
  have hAn : npMod (scramble src) n < n := npMod_lt _ (by omega)
  rw [npDiv_eq_ediv (by omega : rows n ≠ 0)]
  set A := npMod (scramble src) n with hA
  constructor
  · exact Int.ediv_nonneg hA0 (by omega)
  · have h1 : A ≤ cols n * rows n - 1 := by omega
    have h2 : A / rows n ≤ (cols n * rows n - 1) / rows n :=
      Int.ediv_le_ediv (by omega) h1
    have h3 : (cols n * rows n - 1) / rows n = cols n - 1 := by
      have hsplit : cols n * rows n - 1 = (rows n - 1) + (cols n - 1) * rows n := by
        ring
      rw [hsplit, Int.add_mul_ediv_right _ _ (by omega : rows n ≠ 0),
        Int.ediv_eq_zero_of_lt (by omega) (by omega)]
      ring
    omega

lemma new2d_mem_range {n : ℤ} (src dst : ℤ) (hn : 1 ≤ n) :
    0 ≤ new2d src dst n ∧ new2d src dst n < n := by
  have hr : 1 ≤ rows n := rows_pos hn
  have hL1 : 1 ≤ lastColRows n := lastColRows_pos hn
  have hlt : rows n * (cols n - 1) < n := rows_mul_colsPred_lt hn
  have hid := geometry_identity n
  obtain ⟨hcol0, hcolle⟩ := new2d_col_bounds src hn
  simp only [new2d]
  set col := npDiv (npMod (scramble src) n) (rows n) with hcol
  by_cases hcase : col < cols n - 1
  · rw [if_pos hcase]
    set row := npMod (scramble dst) (rows n) with hrow
    have hrow0 : 0 ≤ row := npMod_nonneg _ (by omega)
    have hrowlt : row < rows n := npMod_lt _ (by omega)
    refine ⟨add_nonneg (mul_nonneg hcol0 (by omega)) hrow0, ?_⟩
    have h1 : col * rows n ≤ (cols n - 2) * rows n :=
      mul_le_mul_of_nonneg_right (by omega) (by omega)
    nlinarith
  · rw [if_neg hcase]
    have hcoleq : col = cols n - 1 := by omega
    set row := npMod (scramble dst) (lastColRows n) with hrow
    have hrow0 : 0 ≤ row := npMod_nonneg _ (by omega)
    have hrowlt : row < lastColRows n := npMod_lt _ (by omega)
    refine ⟨add_nonneg (mul_nonneg hcol0 (by omega)) hrow0, ?_⟩
    rw [hcoleq]
    nlinarith

/-- `npMod` by `1` is always `0`. -/
lemma npMod_one (a : ℤ) : npMod a 1 = 0 := by
  simp [npMod, Int.emod_one]

/-- Characterization of euclidean division by a positive divisor. -/
lemma ediv_eq_iff_of_pos {a b q : ℤ} (hb : 0 < b) :
    a / b = q ↔ b * q ≤ a ∧ a < b * q + b := by
  have heq : b * (a / b) + a % b = a := Int.ediv_add_emod a b
  have h0 : 0 ≤ a % b := Int.emod_nonneg a (by omega)
  have h1 : a % b < b := Int.emod_lt_of_pos a hb
  constructor
  · rintro rfl
    omega
  · rintro ⟨hlo, hhi⟩
    have hq : q < a / b + 1 :=
      lt_of_mul_lt_mul_left (by linarith [mul_add b (a / b) 1, mul_one b] :
        b * q < b * (a / b + 1)) (by omega)
    have hd : a / b < q + 1 :=
      lt_of_mul_lt_mul_left (by linarith [mul_add b q 1, mul_one b] :
        b * (a / b) < b * (q + 1)) (by omega)
    omega

/-- The out-edges of a vertex `v` under `new2d` all land in the single column
determined by `v`, in rows below `rows numParts`; its in-edges land in one
row-slot of each of the `cols numParts` columns. -/
lemma new2d_replication {n : ℤ} (v : ℤ) (hn : 1 ≤ n) :
    ∃ T : Finset ℤ, (T.card : ℤ) ≤ 2 * ceilSqrtNumParts n ∧
      ∀ w : ℤ, new2d v w n ∈ T ∧ new2d w v n ∈ T := by
  have hr1 : 1 ≤ rows n := rows_pos hn
  have hrc : rows n ≤ cols n := rows_le_cols hn
  have hL1 : 1 ≤ lastColRows n := lastColRows_pos hn
  have hLr : lastColRows n ≤ rows n := lastColRows_le_rows hn
  obtain ⟨hcv0, hcvle⟩ := new2d_col_bounds v hn
  set colv := npDiv (npMod (scramble v) n) (rows n) with hcolv
  refine ⟨((Finset.range (rows n).toNat).image
        (fun r : ℕ => colv * rows n + (r : ℤ))) ∪
      ((Finset.range (cols n).toNat).image
        (fun q : ℕ => (q : ℤ) * rows n +
          npMod (scramble v)
            (if (q : ℤ) < cols n - 1 then rows n else lastColRows n))), ?_, ?_⟩
  · have hcard := Finset.card_union_le
      ((Finset.range (rows n).toNat).image
        (fun r : ℕ => colv * rows n + (r : ℤ)))
      ((Finset.range (cols n).toNat).image
        (fun q : ℕ => (q : ℤ) * rows n +
          npMod (scramble v)
            (if (q : ℤ) < cols n - 1 then rows n else lastColRows n)))
    have h1 : ((Finset.range (rows n).toNat).image
        (fun r : ℕ => colv * rows n + (r : ℤ))).card ≤ (rows n).toNat :=
      le_trans (Finset.card_image_le) (by rw [Finset.card_range])
    have h2 : ((Finset.range (cols n).toNat).image
        (fun q : ℕ => (q : ℤ) * rows n +
          npMod (scramble v)
            (if (q : ℤ) < cols n - 1 then rows n else lastColRows n))).card ≤
        (cols n).toNat :=
      le_trans (Finset.card_image_le) (by rw [Finset.card_range])
    have hcols : cols n = ceilSqrtNumParts n := rfl
    omega
  · intro w
    constructor
    · -- out-edge: column fixed by v
      have heq : new2d v w n = colv * rows n +
          npMod (scramble w)
            (if colv < cols n - 1 then rows n else lastColRows n) := by
        simp only [new2d]
      set row := npMod (scramble w)
          (if colv < cols n - 1 then rows n else lastColRows n) with hrw
      have hdiv1 : (1 : ℤ) ≤
          (if colv < cols n - 1 then rows n else lastColRows n) := by
        split <;> omega
      have hrow0 : 0 ≤ row := npMod_nonneg _ (by omega)
      have hrowlt : row < rows n := by
        have := npMod_lt (scramble w)
          (b := if colv < cols n - 1 then rows n else lastColRows n) (by omega)
        rw [← hrw] at this
        split at this <;> omega
      apply Finset.mem_union_left
      rw [Finset.mem_image]
      exact ⟨row.toNat, Finset.mem_range.mpr (by omega),
        by rw [Int.toNat_of_nonneg hrow0, ← heq]⟩
    · -- in-edge: one value per column
      obtain ⟨hcw0, hcwle⟩ := new2d_col_bounds w hn
      set colw := npDiv (npMod (scramble w) n) (rows n) with hcolw
      have heq : new2d w v n = colw * rows n +
          npMod (scramble v)
            (if colw < cols n - 1 then rows n else lastColRows n) := by
        simp only [new2d]
      apply Finset.mem_union_right
      rw [Finset.mem_image]
      refine ⟨colw.toNat, Finset.mem_range.mpr (by omega), ?_⟩
      rw [Int.toNat_of_nonneg hcw0, ← heq]

/-- The out-edges of a vertex `v` under `old2d` land in at most `ceilSqrt`
partitions (the row varies), and its in-edges in at most `ceilSqrt`
partitions (the column varies). -/
lemma old2d_replication {n : ℤ} (v : ℤ) (hn : 1 ≤ n) :
    ∃ T : Finset ℤ, (T.card : ℤ) ≤ 2 * ceilSqrtNumParts n ∧
      ∀ w : ℤ, old2d v w n ∈ T ∧ old2d w v n ∈ T := by
  have hc1 : 1 ≤ ceilSqrtNumParts n := ceilSqrt_pos hn
  set c := ceilSqrtNumParts n with hcdef
  set colv := npMod (scramble v) c with hcolv
  refine ⟨((Finset.range c.toNat).image
        (fun r : ℕ => npMod (colv * c + (r : ℤ)) n)) ∪
      ((Finset.range c.toNat).image
        (fun q : ℕ => npMod ((q : ℤ) * c + colv) n)), ?_, ?_⟩
  · have hcard := Finset.card_union_le
      ((Finset.range c.toNat).image
        (fun r : ℕ => npMod (colv * c + (r : ℤ)) n))
      ((Finset.range c.toNat).image
        (fun q : ℕ => npMod ((q : ℤ) * c + colv) n))
    have h1 : ((Finset.range c.toNat).image
        (fun r : ℕ => npMod (colv * c + (r : ℤ)) n)).card ≤ c.toNat :=
      le_trans (Finset.card_image_le) (by rw [Finset.card_range])
    have h2 : ((Finset.range c.toNat).image
        (fun q : ℕ => npMod ((q : ℤ) * c + colv) n)).card ≤ c.toNat :=
      le_trans (Finset.card_image_le) (by rw [Finset.card_range])
    omega
  · intro w
    have hw0 : 0 ≤ npMod (scramble w) c := npMod_nonneg _ (by omega)
    have hwlt : npMod (scramble w) c < c := npMod_lt _ (by omega)
    constructor
    · have heq : old2d v w n =
          npMod (colv * c + npMod (scramble w) c) n := by
        simp only [old2d, hcolv, hcdef]
      apply Finset.mem_union_left
      rw [Finset.mem_image]
      exact ⟨(npMod (scramble w) c).toNat, Finset.mem_range.mpr (by omega),
        by rw [Int.toNat_of_nonneg hw0, ← heq]⟩
    · have heq : old2d w v n =
          npMod (npMod (scramble w) c * c + colv) n := by
        simp only [old2d, hcolv, hcdef]
      apply Finset.mem_union_right
      rw [Finset.mem_image]
      exact ⟨(npMod (scramble w) c).toNat, Finset.mem_range.mpr (by omega),
        by rw [Int.toNat_of_nonneg hw0, ← heq]⟩

/-! ## Column counts of the `new2d` grid -/

/-- The reduced IDs routed to column `c` form the interval
`[rows * c, min (rows * c + rows) numParts)`. -/
lemma colCount_filter_eq (n c : ℤ) (hn : 1 ≤ n) (hc0 : 0 ≤ c) :
    colCount n c =
      (min (rows n * c + rows n) n).toNat - (rows n * c).toNat := by
  have hr : 1 ≤ rows n := rows_pos hn
  rw [colCount]
  have hset : (Finset.range n.toNat).filter
      (fun h : ℕ => npDiv (h : ℤ) (rows n) = c) =
      Finset.Ico (rows n * c).toNat (min (rows n * c + rows n) n).toNat := by
    ext h
    simp only [Finset.mem_filter, Finset.mem_range, Finset.mem_Ico]
    rw [npDiv_eq_ediv (by omega : rows n ≠ 0), ediv_eq_iff_of_pos (by omega)]
    have hP0 : 0 ≤ rows n * c := mul_nonneg (by omega) hc0
    generalize rows n * c = P at hP0 ⊢
    omega
  rw [hset, Nat.card_Ico]

/-- Every column other than the last receives exactly `rows` reduced IDs. -/
lemma colCount_nonlast (n c : ℤ) (hn : 1 ≤ n) (hc0 : 0 ≤ c)
    (hclt : c < cols n - 1) : colCount n c = (rows n).toNat := by
  have hr : 1 ≤ rows n := rows_pos hn
  have hlt : rows n * (cols n - 1) < n := rows_mul_colsPred_lt hn
  have hle : rows n * (c + 1) ≤ rows n * (cols n - 1) :=
    mul_le_mul_of_nonneg_left (by omega) (by omega)
  rw [colCount_filter_eq n c hn hc0]
  have hmin : min (rows n * c + rows n) n = rows n * c + rows n :=
    min_eq_left (by linarith [mul_add (rows n) c 1, mul_one (rows n)])
  rw [hmin]
  have hP0 : 0 ≤ rows n * c := mul_nonneg (by omega) hc0
  generalize rows n * c = P at hP0 ⊢
  omega

/-- The last column receives exactly `lastColRows` reduced IDs. -/
lemma colCount_lastcol (n : ℤ) (hn : 1 ≤ n) :
    colCount n (cols n - 1) = (lastColRows n).toNat := by
  have hc : 1 ≤ cols n := cols_pos hn
  have hr : 1 ≤ rows n := rows_pos hn
  have hlt : rows n * (cols n - 1) < n := rows_mul_colsPred_lt hn
  have hge : n ≤ cols n * rows n := le_cols_mul_rows hn
  rw [colCount_filter_eq n (cols n - 1) hn (by omega)]
  have hmin : min (rows n * (cols n - 1) + rows n) n = n :=
    min_eq_right (by nlinarith)
  rw [hmin, lastColRows]
  have hP0 : 0 ≤ rows n * (cols n - 1) := mul_nonneg (by omega) (by omega)
  generalize rows n * (cols n - 1) = P at hP0 hlt ⊢
  omega

/-! ## Claim theorems -/

/-- Claim C1 (range invariant): for every `numParts ≥ 1` and all 64-bit
`src`, `dst`, the assignment functions return a partition index in
`[0, numParts)` — `new2d` for general `numParts`, `old2d` on the
perfect-square path, and the branching `getPartition` — including when the
wrapped absolute value of `src * mixingPrime` or `dst * mixingPrime` is
negative (the INT64_MIN wrap case is covered because `src`, `dst` range over
all of `ℤ`). -/
theorem c1_range_invariant (src dst n : ℤ) (hn : 1 ≤ n) :
    (0 ≤ new2d src dst n ∧ new2d src dst n < n) ∧
      (0 ≤ old2d src dst n ∧ old2d src dst n < n) ∧
      (0 ≤ getPartition src dst n ∧ getPartition src dst n < n) := by
  refine ⟨new2d_mem_range src dst hn, old2d_mem_range src dst hn, ?_⟩
  rw [getPartition]
  by_cases h : n = ceilSqrtNumParts n * ceilSqrtNumParts n
  · rw [if_pos h]
    exact old2d_mem_range src dst hn
  · rw [if_neg h]
    exact new2d_mem_range src dst hn

/-- Witness for C1: at `src = dst = -2^63` (the INT64_MIN wrap case) and
`numParts = 10`, all three results are in `[0, 10)`. -/
theorem c1_range_invariant_witness :
    (1 : ℤ) ≤ 10 ∧
      ((0 ≤ new2d (-(2 ^ 63)) (-(2 ^ 63)) 10 ∧
          new2d (-(2 ^ 63)) (-(2 ^ 63)) 10 < 10) ∧
        (0 ≤ old2d (-(2 ^ 63)) (-(2 ^ 63)) 10 ∧
          old2d (-(2 ^ 63)) (-(2 ^ 63)) 10 < 10) ∧
        (0 ≤ getPartition (-(2 ^ 63)) (-(2 ^ 63)) 10 ∧
          getPartition (-(2 ^ 63)) (-(2 ^ 63)) 10 < 10)) :=
  ⟨by norm_num, c1_range_invariant (-(2 ^ 63)) (-(2 ^ 63)) 10 (by norm_num)⟩

set_option maxRecDepth 40000 in
/-- Counterexample for C2: `numParts = 4` is a perfect square, yet the
general-case formula `new2d` disagrees with the original algorithm `old2d`
there: at `src = dst = 1`, `new2d` gives `1` while `old2d` gives `3`. -/
theorem c2_counterexample :
    ceilSqrtNumParts 4 * ceilSqrtNumParts 4 = 4 ∧
      new2d 1 1 4 = 1 ∧ old2d 1 1 4 = 3 ∧ new2d 1 1 4 ≠ old2d 1 1 4 := by
  decide

/-- Claim C2 as amended (perfect-square fast path): for every perfect-square
`numParts`, the branching assignment function `getPartition` is decided by
the fast path alone and equals the original algorithm
`old2d = (col * ceilSqrt + row) % numParts` bit-for-bit; the standalone
general-case formula `new2d`, however, does not agree with `old2d` on every
perfect square (see the counterexample). -/
theorem c2_perfect_square_fast_path (src dst n : ℤ)
    (h : n = ceilSqrtNumParts n * ceilSqrtNumParts n) :
    getPartition src dst n = old2d src dst n ∧
      old2d src dst n =
        npMod (npMod (scramble src) (ceilSqrtNumParts n) * ceilSqrtNumParts n +
          npMod (scramble dst) (ceilSqrtNumParts n)) n := by
  refine ⟨?_, rfl⟩
  rw [getPartition, if_pos h]

set_option maxRecDepth 40000 in
/-- Witness for the amended C2 at the perfect square `numParts = 4`,
`src = dst = 1`. -/
theorem c2_perfect_square_fast_path_witness :
    (4 : ℤ) = ceilSqrtNumParts 4 * ceilSqrtNumParts 4 ∧
      (getPartition 1 1 4 = old2d 1 1 4 ∧
        old2d 1 1 4 =
          npMod (npMod (scramble 1) (ceilSqrtNumParts 4) * ceilSqrtNumParts 4 +
            npMod (scramble 1) (ceilSqrtNumParts 4)) 4) :=
  ⟨by decide, c2_perfect_square_fast_path 1 1 4 (by decide)⟩

/-- Claim C3 (grid geometry consistency): for every `numParts ≥ 1`, with
`cols = ceil(sqrt(numParts))`, `rows = (numParts + cols - 1) / cols` and
`lastColRows = numParts - rows * (cols - 1)`, the bounds
`1 ≤ lastColRows ≤ rows` hold and `(cols - 1) * rows + lastColRows = numParts`
holds exactly. -/
theorem c3_grid_geometry (n : ℤ) (hn : 1 ≤ n) :
    1 ≤ lastColRows n ∧ lastColRows n ≤ rows n ∧
      (cols n - 1) * rows n + lastColRows n = n :=
  ⟨lastColRows_pos hn, lastColRows_le_rows hn, geometry_identity n⟩

/-- Witness for C3 at `numParts = 10` (`cols = 4`, `rows = 3`,
`lastColRows = 1`). -/
theorem c3_grid_geometry_witness :
    (1 : ℤ) ≤ 10 ∧
      (1 ≤ lastColRows 10 ∧ lastColRows 10 ≤ rows 10 ∧
        (cols 10 - 1) * rows 10 + lastColRows 10 = 10) :=
  ⟨by norm_num, c3_grid_geometry 10 (by norm_num)⟩

/-- Counterexample for C5: at `numParts = 0` (which is `≤ 0`), neither
function signals an error — both silently return the index `0`, via numpy's
silenced division/modulo-by-zero convention (`np.seterr(all='ignore')`). -/
theorem c5_counterexample :
    old2dE 0 0 0 = Except.ok 0 ∧ new2dE 0 0 0 = Except.ok 0 := by
  have h1 : old2d 0 0 0 = 0 := by decide
  have h2 : new2d 0 0 0 = 0 := by decide
  rw [old2dE, new2dE, if_neg (by norm_num : ¬(0 : ℤ) < 0),
    if_neg (by norm_num : ¬(0 : ℤ) < 0), h1, h2]
  exact ⟨rfl, rfl⟩

/-- Claim C5 as amended: only `numParts < 0` is rejected with an explicit
error (the `ValueError: math domain error` that `math.sqrt` raises on
negative input); `numParts = 0` is not rejected and silently yields `0`
(see the counterexample). -/
theorem c5_invalid_numparts (src dst n : ℤ) (hn : n < 0) :
    old2dE src dst n = Except.error "math domain error" ∧
      new2dE src dst n = Except.error "math domain error" := by
  rw [old2dE, new2dE, if_pos hn, if_pos hn]
  exact ⟨rfl, rfl⟩

/-- Witness for the amended C5 at `numParts = -1`. -/
theorem c5_invalid_numparts_witness :
    (-1 : ℤ) < 0 ∧
      (old2dE 3 5 (-1) = Except.error "math domain error" ∧
        new2dE 3 5 (-1) = Except.error "math domain error") :=
  ⟨by norm_num, c5_invalid_numparts 3 5 (-1) (by norm_num)⟩

set_option maxRecDepth 40000 in
/-- Claim C6 (INT64_MIN wraparound scenario): with `src = dst = -2^63` and
`numParts = 4`, the assignment does not raise and returns `0 ∈ [0, 4)`; the
wrapped absolute value of `src * mixingPrime` is the negative value `-2^63`
itself (`|INT64_MIN|` wraps to INT64_MIN). -/
theorem c6_int64min_scenario :
    scramble (-(2 ^ 63)) = -(2 ^ 63) ∧
      old2dE (-(2 ^ 63)) (-(2 ^ 63)) 4 = Except.ok 0 ∧
      new2dE (-(2 ^ 63)) (-(2 ^ 63)) 4 = Except.ok 0 ∧
      old2d (-(2 ^ 63)) (-(2 ^ 63)) 4 = 0 ∧ (0 : ℤ) ≤ 0 ∧ (0 : ℤ) < 4 := by
  have h1 : old2d (-(2 ^ 63)) (-(2 ^ 63)) 4 = 0 := by decide
  have h2 : new2d (-(2 ^ 63)) (-(2 ^ 63)) 4 = 0 := by decide
  refine ⟨by decide, ?_, ?_, h1, by norm_num, by norm_num⟩
  · rw [old2dE, if_neg (by norm_num : ¬(4 : ℤ) < 0), h1]
  · rw [new2dE, if_neg (by norm_num : ¬(4 : ℤ) < 0), h2]

/-- Claim C4 (replication-factor bound): for every `numParts ≥ 1` and every
64-bit vertex id `v`, the partition indices produced by `v`'s incident edges
— over all possible other endpoints — stay inside a set of at most
`2 * ceil(sqrt(numParts))` partitions, for each of `new2d` and `old2d`
(in `new2d`, the column depends only on the source, so out-edges of `v` land
in a single column of at most `rows` partitions). -/
theorem c4_replication_bound (n v : ℤ) (hn : 1 ≤ n) :
    (∃ T : Finset ℤ, (T.card : ℤ) ≤ 2 * ceilSqrtNumParts n ∧
        ∀ w : ℤ, new2d v w n ∈ T ∧ new2d w v n ∈ T) ∧
      (∃ T : Finset ℤ, (T.card : ℤ) ≤ 2 * ceilSqrtNumParts n ∧
        ∀ w : ℤ, old2d v w n ∈ T ∧ old2d w v n ∈ T) :=
  ⟨new2d_replication v hn, old2d_replication v hn⟩

/-- Witness for C4 at `numParts = 10`, `v = 42`. -/
theorem c4_replication_bound_witness :
    (1 : ℤ) ≤ 10 ∧
      ((∃ T : Finset ℤ, (T.card : ℤ) ≤ 2 * ceilSqrtNumParts 10 ∧
          ∀ w : ℤ, new2d 42 w 10 ∈ T ∧ new2d w 42 10 ∈ T) ∧
        (∃ T : Finset ℤ, (T.card : ℤ) ≤ 2 * ceilSqrtNumParts 10 ∧
          ∀ w : ℤ, old2d 42 w 10 ∈ T ∧ old2d w 42 10 ∈ T)) :=
  ⟨by norm_num, c4_replication_bound 10 42 (by norm_num)⟩

set_option maxRecDepth 40000 in
/-- Counterexample for C7: `numParts = 7` is not a perfect square
(`ceilSqrt = 3`, `cols = 3`, `rows = 3`, `lastColRows = 1`), and columns `0`
and `2` receive `3` and `1` reduced IDs respectively — their counts differ by
`2`, not by at most `1`. -/
theorem c7_counterexample :
    ceilSqrtNumParts 7 * ceilSqrtNumParts 7 ≠ 7 ∧ (1 : ℤ) ≤ 7 ∧
      (0 : ℤ) ≤ 0 ∧ (0 : ℤ) < cols 7 ∧ (0 : ℤ) ≤ 2 ∧ (2 : ℤ) < cols 7 ∧
      colCount 7 0 = 3 ∧ colCount 7 2 = 1 ∧
      ¬(colCount 7 0 ≤ colCount 7 2 + 1 ∧ colCount 7 2 ≤ colCount 7 0 + 1) := by
  decide

/-- Claim C7 as amended (column balance): for every `numParts ≥ 1`, each
column of `new2d`'s grid except the last receives exactly `rows` of the
reduced IDs `h ∈ [0, numParts)` under `h ↦ h / rows`, and the last column
receives exactly `lastColRows`; hence two column shares differ by at most
`rows - lastColRows` — which can exceed `1` (see the counterexample), not by
at most `1` as claimed. -/
theorem c7_column_balance (n : ℤ) (hn : 1 ≤ n) :
    (∀ c : ℤ, 0 ≤ c → c < cols n - 1 → colCount n c = (rows n).toNat) ∧
      colCount n (cols n - 1) = (lastColRows n).toNat ∧
      ∀ c1 c2 : ℤ, 0 ≤ c1 → c1 ≤ cols n - 1 → 0 ≤ c2 → c2 ≤ cols n - 1 →
        (colCount n c1 : ℤ) - (colCount n c2 : ℤ) ≤ rows n - lastColRows n := by
  have hr : 1 ≤ rows n := rows_pos hn
  have hL1 : 1 ≤ lastColRows n := lastColRows_pos hn
  have hLr : lastColRows n ≤ rows n := lastColRows_le_rows hn
  refine ⟨fun c hc0 hclt => colCount_nonlast n c hn hc0 hclt,
    colCount_lastcol n hn, ?_⟩
  have hval : ∀ c : ℤ, 0 ≤ c → c ≤ cols n - 1 →
      lastColRows n ≤ (colCount n c : ℤ) ∧ (colCount n c : ℤ) ≤ rows n := by
    intro c hc0 hcle
    rcases lt_or_eq_of_le hcle with hclt | hceq
    · rw [colCount_nonlast n c hn hc0 hclt, Int.toNat_of_nonneg (by omega)]
      omega
    · rw [hceq, colCount_lastcol n hn, Int.toNat_of_nonneg (by omega)]
      omega
  intro c1 c2 h10 h1le h20 h2le
  obtain ⟨ha, hb⟩ := hval c1 h10 h1le
  obtain ⟨hc, hd⟩ := hval c2 h20 h2le
  omega

set_option maxRecDepth 40000 in
/-- Witness for the amended C7 at `numParts = 7`. -/
theorem c7_column_balance_witness :
    (1 : ℤ) ≤ 7 ∧
      ((∀ c : ℤ, 0 ≤ c → c < cols 7 - 1 → colCount 7 c = (rows 7).toNat) ∧
        colCount 7 (cols 7 - 1) = (lastColRows 7).toNat ∧
        ∀ c1 c2 : ℤ, 0 ≤ c1 → c1 ≤ cols 7 - 1 → 0 ≤ c2 → c2 ≤ cols 7 - 1 →
          (colCount 7 c1 : ℤ) - (colCount 7 c2 : ℤ) ≤ rows 7 - lastColRows 7) :=
  ⟨by norm_num, c7_column_balance 7 (by norm_num)⟩

/-- Claim C8 (single-partition scenario): with `numParts = 1` every edge is
assigned to partition `0`, by both algorithms and the branching function. -/
theorem c8_single_partition (x y : ℤ) :
    old2d x y 1 = 0 ∧ new2d x y 1 = 0 ∧ getPartition x y 1 = 0 := by
  have hc : ceilSqrtNumParts 1 = 1 := by decide
  have hcols : cols 1 = 1 := hc
  have hrows : rows 1 = 1 := by decide
  have hlast : lastColRows 1 = 1 := by decide
  have hold : old2d x y 1 = 0 := by
    simp [old2d, hc, npMod_one]
  refine ⟨hold, ?_, ?_⟩
  · simp [new2d, hcols, hrows, hlast, npMod_one, npDiv]
  · rw [getPartition, if_pos (by rw [hc]; norm_num : (1 : ℤ) = ceilSqrtNumParts 1 * ceilSqrtNumParts 1)]
    exact hold

/-- Claim C9 (determinism): both assignment functions and the branching
function are pure functions of `(src, dst, numParts)`: calls with identical
arguments produce identical outputs. -/
theorem c9_determinism (src dst n src' dst' n' : ℤ)
    (hs : src = src') (hd : dst = dst') (hn : n = n') :
    old2d src dst n = old2d src' dst' n' ∧
      new2d src dst n = new2d src' dst' n' ∧
      getPartition src dst n = getPartition src' dst' n' := by
  subst hs hd hn
  exact ⟨rfl, rfl, rfl⟩

/-- Witness for C9 at `(src, dst, numParts) = (1, 2, 3)`. -/
theorem c9_determinism_witness :
    (1 : ℤ) = 1 ∧ (2 : ℤ) = 2 ∧ (3 : ℤ) = 3 ∧
      (old2d 1 2 3 = old2d 1 2 3 ∧ new2d 1 2 3 = new2d 1 2 3 ∧
        getPartition 1 2 3 = getPartition 1 2 3) :=
  ⟨rfl, rfl, rfl, c9_determinism 1 2 3 1 2 3 rfl rfl rfl⟩

/-- Claim C10 (implicit): the original algorithm `old2d` is itself total and
in-range for every `numParts ≥ 1`, not only for perfect squares: the trailing
modulo by `numParts` reduces the grid index
`col * ceilSqrt + row` into `[0, numParts)`. -/
theorem c10_old2d_total_range (src dst n : ℤ) (hn : 1 ≤ n) :
    old2d src dst n =
        npMod (npMod (scramble src) (ceilSqrtNumParts n) * ceilSqrtNumParts n +
          npMod (scramble dst) (ceilSqrtNumParts n)) n ∧
      0 ≤ old2d src dst n ∧ old2d src dst n < n :=
  ⟨rfl, old2d_mem_range src dst hn⟩

/-- Witness for C10 at the non-square `numParts = 7`. -/
theorem c10_old2d_total_range_witness :
    (1 : ℤ) ≤ 7 ∧
      (old2d 11 13 7 =
          npMod (npMod (scramble 11) (ceilSqrtNumParts 7) * ceilSqrtNumParts 7 +
            npMod (scramble 13) (ceilSqrtNumParts 7)) 7 ∧
        0 ≤ old2d 11 13 7 ∧ old2d 11 13 7 < 7) :=
  ⟨by norm_num, c10_old2d_total_range 11 13 7 (by norm_num)⟩

end EdgePartition2D
